import Mathlib

/-!
Verification of `obsidian-list-modified` (src/main.ts)

A shallow embedding of the plugin's core logic:

* the settings record (`Settings`) mirroring `ListModifiedSettings`;
* the region writer `updateTrackedFiles` (main.ts lines 154-238), with the
  note's content modelled as its list of lines and the host metadata cache
  modelled by parsing ATX headings out of those lines (the host contract:
  `cache.headings` lists each heading line with its text and line position,
  and is `undefined` - here `[]` - when the note has no headings);
* the formatter `getFormattedOutput` (lines 240-259), with JavaScript's
  `String.replace(pattern, replacement)` modelled by `jsReplace`
  (first-occurrence replacement) and host-supplied data (markdown link,
  basename, tags, formatted ctime) packed into a `FileRec`;
* the cache-change handler `onCacheChange` (lines 49-87), including the
  aliasing of the captured `trackedFiles` array across the date-rollover
  reassignment;
* the delete/rename handlers (lines 128-152) as a vault-level transition
  system used to establish the no-duplicates invariant;
* the daily-note resolution prefix (lines 157-173);
* a model of the event serializer, written from the spec's contract since
  the `serialize` wrapper is an external library not present under `src/`.
-/

namespace ListModified

/-! ## Basic list helpers -/

/-- Obsidian's `Array.prototype.remove(target)`: removes every occurrence of
`target` from the array, keeping the order of the rest. -/
def removeAll (x : String) (l : List String) : List String :=
  l.filter (fun y => y ≠ x)

/-- JavaScript `Array.prototype.splice(start, deleteCount, ...items)` on a
list: keep the first `start` elements, drop the next `deleteCount`, insert
`items` in between.  Negative JS arguments cannot arise here: the deletion
count is always formed by a subtraction whose JS-negative case coincides
with truncated `Nat` subtraction producing `0`, and `start` past the end
of the list behaves as an append, exactly as `take`/`drop` do. -/
def spliceList (l : List α) (start deleteCount : Nat) (items : List α) : List α :=
  l.take start ++ items ++ l.drop (start + deleteCount)

/-! ## Headings and the metadata cache -/

/-- One entry of the host's heading cache (`HeadingCache`): the heading
text, its level, and its start/end line.  ATX headings are single-line,
so `startLine = endLine` for every cache entry produced by `parseHeadings`. -/
structure Heading where
  heading : String
  level : Nat
  startLine : Nat
  endLine : Nat
deriving DecidableEq, Repr

/-- Recognize an ATX heading line: 1-6 `#` characters followed by a space;
the heading text is everything after that space.  Returns `none` for
non-heading lines. -/
def isHeadingLine? (l : String) : Option (Nat × String) :=
  let cs := l.data
  let hashes := cs.takeWhile (fun c => c = '#')
  let rest := cs.drop hashes.length
  if 1 ≤ hashes.length ∧ hashes.length ≤ 6 ∧ rest.head? = some ' ' then
    some (hashes.length, String.mk rest.tail)
  else none

/-- The heading cache of a note whose lines are `ls`, with the first line
numbered `k`.  Models the host guarantee that `metadataCache` lists the
note's headings in order with their line positions. -/
def parseHeadingsFrom : Nat → List String → List Heading
  | _, [] => []
  | k, l :: ls =>
    match isHeadingLine? l with
    | some (lv, t) => ⟨t, lv, k, k⟩ :: parseHeadingsFrom (k + 1) ls
    | none => parseHeadingsFrom (k + 1) ls

/-- The heading cache of a whole note (first line is line 0). -/
def parseHeadings (ls : List String) : List Heading :=
  parseHeadingsFrom 0 ls

/-! ## Settings -/

/-- `ListModifiedSettings`: the persisted settings record.  `writeInterval`
is in seconds (`writeIntervalInMs = writeInterval * 1000`, so the
truthiness test on `writeIntervalInMs` is `writeInterval ≠ 0`). -/
structure Settings where
  writeInterval : Nat
  heading : String
  outputFormat : String
  tags : String
  excludedFolders : String
  ignoredNameContains : String
  automaticallyCreateDailyNote : Bool
  trackedFiles : List String
  lastTrackedDate : String
deriving DecidableEq, Repr

/-! ## The formatter (`getFormattedOutput`, lines 240-259) -/

/-- Host-supplied data about one vault file, as consumed by the formatter:
`link` is the host's `generateMarkdownLink(file, dailyNote.path)` output,
`basename` the file's basename, `tags` the file's tag list from
`getAllTags`, and `ctimeFormatted` is `moment(file.stat.ctime).format("YYYY-MM-DD")`. -/
structure FileRec where
  link : String
  basename : String
  tags : List String
  ctimeFormatted : String
deriving DecidableEq, Repr

/-- JavaScript `String.replace` with a string pattern: replace the first
occurrence of `p` (the empty pattern matches at position 0), leave the
string unchanged when `p` does not occur. -/
def replaceFirstAux : List Char → List Char → List Char → List Char
  | [], p, r => if p = [] then r else []
  | c :: cs, p, r =>
    if p.isPrefixOf (c :: cs) then r ++ (c :: cs).drop p.length
    else c :: replaceFirstAux cs p r

/-- `jsReplace s p r` is JavaScript `s.replace(p, r)` for string patterns. -/
def jsReplace (s p r : String) : String :=
  String.mk (replaceFirstAux s.data p.data r.data)

/-- The tag list rendered by the formatter: each tag prefixed with a
backslash, joined with `", "`. -/
def renderTags (tags : List String) : String :=
  String.intercalate ", " (tags.map (fun t => "\\" ++ t))

/-- `getFormattedOutput(path)` (lines 240-259): look the path up in the
vault; a missing file makes the JavaScript dereference `file.basename`
(and `generateMarkdownLink(file, …)`) throw, which the model reports as
`Except.error path`.  Otherwise substitute the four placeholders, each by
a single first-occurrence `String.replace`, in source order:
`[[link]]`, `[[name]]`, `[[tags]]`, `[[ctime]]`. -/
def getFormattedOutput (vault : String → Option FileRec) (outputFormat : String)
    (path : String) : Except String String :=
  match vault path with
  | none => Except.error path
  | some f =>
    Except.ok
      (jsReplace
        (jsReplace
          (jsReplace
            (jsReplace outputFormat "[[link]]" f.link)
            "[[name]]" f.basename)
          "[[tags]]" (renderTags f.tags))
        "[[ctime]]" f.ctimeFormatted)

/-- `trackedFiles.map(path => this.getFormattedOutput(path))`: JavaScript
evaluates left to right and the first thrown error aborts the whole map. -/
def renderAll (render1 : String → Except String String) :
    List String → Except String (List String)
  | [] => Except.ok []
  | p :: ps =>
    match render1 p with
    | Except.error e => Except.error e
    | Except.ok r =>
      match renderAll render1 ps with
      | Except.error e => Except.error e
      | Except.ok rs => Except.ok (r :: rs)

/-! ## The region writer (`updateTrackedFiles`, lines 154-238) -/

/-- Outcome of one `updateTrackedFiles` invocation on an existing note.
`appended c` is the auto-create-heading branch (lines 182-205, a
`vault.append`), `gated` the early return at lines 208-210, `wrote c` the
heading loop having performed at least one `vault.modify` leaving the note
at `c`, `noMatch` the loop finding no matching heading (no write at all),
and `crashed e` an exception thrown while rendering a tracked path. -/
inductive UpdateResult where
  | appended (c : List String)
  | gated
  | wrote (c : List String)
  | noMatch
  | crashed (e : String)
deriving DecidableEq, Repr

/-- The heading loop (lines 212-237): iterate over the cached headings with
their original (stale) positions, and for every heading whose text equals
the target, splice the rendered list into the current content.  The
rendered list is only demanded at a match, as in the source, where the
`map` runs inside the `splice` call; a render error thrown at the first
match aborts the loop before any `vault.modify`. -/
def writeLoop (target : String) (render : Except String (List String)) :
    List Heading → List String → Except String (List String × Bool)
  | [], c => Except.ok (c, false)
  | h :: rest, c =>
    if h.heading = target then
      match render with
      | Except.error e => Except.error e
      | Except.ok rs =>
        let startPos := h.endLine + 1
        let c' :=
          match rest.head? with
          | some nxt => spliceList c startPos (nxt.startLine - 1 - startPos) rs
          | none => spliceList c startPos (c.length - startPos) rs
        match writeLoop target render rest c' with
        | Except.error e => Except.error e
        | Except.ok (c'', _) => Except.ok (c'', true)
    else writeLoop target render rest c

/-- The lines appended by the auto-create-heading branch: the source appends
the string `"\n# " + heading + "\n" + rendered.join("\n")`, which in line
space adds the heading line followed by the rendered lines (or a single
empty line when the tracked set is empty, from the trailing newline). -/
def appendedLines (heading : String) (rs : List String) : List String :=
  ("# " ++ heading) :: (if rs.isEmpty then [""] else rs)

/-- `updateTrackedFiles(doWrite?)` (lines 154-238) on a resolved note whose
lines are `content`.  The heading cache is `parseHeadings content`; the
source reads it from `metadataCache`, whose contract is that it matches the
note's current content (`undefined`, here `[]`, when there are no
headings).  Branch order is the source's: the auto-create-heading branch
(`!currentHeadings || !this.settings.heading`), then the interval gate
(`this.writeIntervalInMs && !doWrite`), then the heading loop. -/
def updateTrackedFiles (s : Settings) (render1 : String → Except String String)
    (content : List String) (doWrite : Bool) : UpdateResult :=
  let hs := parseHeadings content
  if hs.isEmpty ∨ s.heading = "" then
    match renderAll render1 s.trackedFiles with
    | Except.error e => UpdateResult.crashed e
    | Except.ok rs => UpdateResult.appended (content ++ appendedLines s.heading rs)
  else if s.writeInterval ≠ 0 ∧ doWrite = false then UpdateResult.gated
  else
    match writeLoop s.heading (renderAll render1 s.trackedFiles) hs content with
    | Except.error e => UpdateResult.crashed e
    | Except.ok (c, true) => UpdateResult.wrote c
    | Except.ok (_, false) => UpdateResult.noMatch

/-- Whether an invocation outcome wrote note content (`vault.append` or
`vault.modify`). -/
def UpdateResult.writesNote : UpdateResult → Bool
  | UpdateResult.appended _ => true
  | UpdateResult.wrote _ => true
  | _ => false

/-- The note content after an invocation that started from `content`. -/
def UpdateResult.contentAfter (content : List String) : UpdateResult → List String
  | UpdateResult.appended c => c
  | UpdateResult.wrote c => c
  | _ => content

/-! ## The cache-change handler (`onCacheChange`, lines 49-87) -/

/-- What one `onCacheChange` invocation did.  `rolloverWriteCall` is the
result of the `updateTrackedFiles()` call inside the date-rollover block
(lines 54-59), when that block ran; `finalWriteCall` is the result of the
trailing `updateTrackedFiles()` call (line 85), which is skipped when the
event's file is the daily note (early return, lines 63-65) or when the
rollover write threw.  `settings` and `note` are the settings record and
the note lines after the invocation. -/
structure CacheChangeOutcome where
  settings : Settings
  note : List String
  rolloverWriteCall : Option UpdateResult
  finalWriteCall : Option UpdateResult
deriving DecidableEq, Repr

/-- `onCacheChange(file, _data, cache)` (lines 49-87).  The filter
predicates (`cacheContainsIgnoredTag`, `pathIsExcluded`,
`noteTitleContainsIgnoredText`) and the daily-note identity test are pure
functions of the event's file and the settings; the model takes their
values as the booleans `ignoredTag`, `pathExcluded`, `ignoredTitle`,
`isDailyNote`.

Aliasing, faithfully modelled: the source captures
`const trackedFiles = this.settings.trackedFiles` *before* the rollover
block replaces `this.settings.trackedFiles` with a fresh `[]`; on a
rollover event the later `push`/`remove` therefore mutate the orphaned old
array, and the settings keep the fresh empty list.  A throw from the
rollover write aborts the handler before the set is cleared. -/
def onCacheChange (s : Settings) (render1 : String → Except String String)
    (note : List String) (currentDate : String) (path : String)
    (isDailyNote ignoredTag pathExcluded ignoredTitle : Bool) : CacheChangeOutcome :=
  let rollover := s.lastTrackedDate ≠ currentDate
  let rolloverCall :=
    if rollover then some (updateTrackedFiles s render1 note false) else none
  match rolloverCall with
  | some (UpdateResult.crashed e) =>
    { settings := s, note := note,
      rolloverWriteCall := some (UpdateResult.crashed e), finalWriteCall := none }
  | _ =>
    let note1 :=
      match rolloverCall with
      | some r => r.contentAfter note
      | none => note
    let s1 :=
      if rollover then { s with trackedFiles := [], lastTrackedDate := currentDate }
      else s
    if isDailyNote then
      { settings := s1, note := note1, rolloverWriteCall := rolloverCall,
        finalWriteCall := none }
    else
      let tf0 := s.trackedFiles
      let tf1 :=
        if tf0.contains path = false ∧ ignoredTag = false ∧ pathExcluded = false ∧
            ignoredTitle = false then
          tf0 ++ [path]
        else tf0
      let tf2 :=
        if (tf1.contains path = true ∧ ignoredTag = true) ∨ pathExcluded = true ∨
            ignoredTitle = true then
          removeAll path tf1
        else tf1
      let s2 := if rollover then s1 else { s1 with trackedFiles := tf2 }
      let finalCall := updateTrackedFiles s2 render1 note1 false
      { settings := s2, note := finalCall.contentAfter note1,
        rolloverWriteCall := rolloverCall, finalWriteCall := some finalCall }

/-! ## Daily-note resolution (lines 157-173) -/

/-- What the resolution prefix of `updateTrackedFiles` (lines 157-173) did.
`noticed` is the `Notice` from the `catch` block (shown only when
`getDailyNote` *throws*; returning `null` shows nothing), `created`
whether `createDailyNote` ran, `reinvoked` whether the unconditional
`this.updateTrackedFiles()` re-invocation at line 172 was issued, and
`continueWith` the `dailyNote` value the rest of the invocation proceeds
with (`none` models proceeding with `undefined`). -/
structure ResolveOutcome where
  noticed : Bool
  created : Bool
  reinvoked : Bool
  continueWith : Option Unit
deriving DecidableEq, Repr

/-- Lines 157-173: `getDailyNote` yields `existing` (`none` when today's
note does not exist; that path returns `null` rather than throwing).  When
the note is missing, auto-create optionally creates it, and the handler
unconditionally re-invokes itself and then *falls through* to the rest of
the routine with whatever `dailyNote` holds. -/
def resolveDailyNote (autoCreate : Bool) (existing : Option Unit) : ResolveOutcome :=
  match existing with
  | some _ => { noticed := false, created := false, reinvoked := false,
                continueWith := some () }
  | none =>
    if autoCreate then
      { noticed := false, created := true, reinvoked := true, continueWith := some () }
    else
      { noticed := false, created := false, reinvoked := true, continueWith := none }

/-- The chain of queued re-invocations started by one `updateTrackedFiles`
call when the daily note is missing: each invocation resolves the note and,
when line 172 fires, queues the next invocation (the note exists from then
on when it was just created).  `reinvokeChain n` is `true` when the chain
reaches an invocation that does not re-invoke within `n` invocations -
i.e. when the recursion terminates. -/
def reinvokeChain : Nat → Bool → Option Unit → Bool
  | 0, _, _ => false
  | n + 1, autoCreate, existing =>
    let r := resolveDailyNote autoCreate existing
    if r.reinvoked then
      reinvokeChain n autoCreate (if r.created then some () else existing)
    else true

/-! ## Vault-level transition system (delete/rename handlers, lines 128-152) -/

/-- A host event observed by the plugin.  `cacheChange` carries the values
of the pure filter predicates plus the note state its write calls operate
on; `vaultDelete`/`vaultRename` carry the `file instanceof TFile` test as
`isFolder` (folders fail it and the handlers do nothing). -/
inductive VaultEvent where
  | cacheChange (path : String) (currentDate : String)
      (isDailyNote ignoredTag pathExcluded ignoredTitle : Bool)
      (note : List String) (render1 : String → Except String String)
  | vaultDelete (path : String) (isFolder : Bool)
  | vaultRename (newPath oldPath : String) (isFolder : Bool)

/-- Plugin settings together with the vault's current set of file paths. -/
structure SysState where
  settings : Settings
  vault : List String

/-- `onVaultDelete` (lines 128-135): for a file event, drop a tracked path. -/
def onVaultDelete (s : Settings) (path : String) (isFolder : Bool) : Settings :=
  if isFolder = false ∧ s.trackedFiles.contains path = true then
    { s with trackedFiles := removeAll path s.trackedFiles }
  else s

/-- `onVaultRename` (lines 137-152): for a file event whose old path was
tracked, remove the old path and append the new one. -/
def onVaultRename (s : Settings) (newPath oldPath : String) (isFolder : Bool) : Settings :=
  if isFolder = false ∧ s.trackedFiles.contains oldPath = true then
    { s with trackedFiles := removeAll oldPath s.trackedFiles ++ [newPath] }
  else s

/-- Host-side validity of an event in a vault state: a metadata change or a
file deletion concerns an existing file, and a file rename moves an
existing file to a previously unoccupied path. -/
def validEvent (σ : SysState) : VaultEvent → Bool
  | VaultEvent.cacheChange path _ _ _ _ _ _ _ => σ.vault.contains path
  | VaultEvent.vaultDelete path isFolder =>
    isFolder || σ.vault.contains path
  | VaultEvent.vaultRename newPath oldPath isFolder =>
    isFolder || (σ.vault.contains oldPath && !σ.vault.contains newPath)

/-- One event's effect on the system: the plugin handler updates the
settings and the host updates the vault. -/
def stepSys (σ : SysState) : VaultEvent → SysState
  | VaultEvent.cacheChange path currentDate isDaily ignoredTag pathExcluded
      ignoredTitle note render1 =>
    { σ with settings :=
        (onCacheChange σ.settings render1 note currentDate path isDaily
          ignoredTag pathExcluded ignoredTitle).settings }
  | VaultEvent.vaultDelete path isFolder =>
    { settings := onVaultDelete σ.settings path isFolder,
      vault := if isFolder then σ.vault else σ.vault.erase path }
  | VaultEvent.vaultRename newPath oldPath isFolder =>
    { settings := onVaultRename σ.settings newPath oldPath isFolder,
      vault := if isFolder then σ.vault else σ.vault.erase oldPath ++ [newPath] }

/-- Run a sequence of events. -/
def runSys (σ : SysState) : List VaultEvent → SysState
  | [] => σ
  | e :: es => runSys (stepSys σ e) es

/-- Every event of the trace is valid in the state where it is delivered. -/
def validTrace (σ : SysState) : List VaultEvent → Prop
  | [] => True
  | e :: es => validEvent σ e = true ∧ validTrace (stepSys σ e) es

instance : ∀ (σ : SysState) (es : List VaultEvent), Decidable (validTrace σ es)
  | _, [] => Decidable.isTrue trivial
  | σ, e :: es =>
    match instDecidableEqBool (validEvent σ e) true,
        instDecidableValidTrace (stepSys σ e) es with
    | Decidable.isTrue h1, Decidable.isTrue h2 => Decidable.isTrue ⟨h1, h2⟩
    | Decidable.isFalse h1, _ => Decidable.isFalse (fun h => h1 h.1)
    | _, Decidable.isFalse h2 => Decidable.isFalse (fun h => h2 h.2)

/-- The system invariant: the vault's path list and the tracked list are
duplicate-free, and every tracked path names an existing vault file. -/
def SysInv (σ : SysState) : Prop :=
  σ.vault.Nodup ∧ σ.settings.trackedFiles.Nodup ∧
    σ.settings.trackedFiles ⊆ σ.vault

/-! ## Event serializer (spec model) -/

/-- Modelled from the spec: one logical operation queued through the Event
Serializer - an invocation of `onCacheChange`, `onVaultDelete`,
`onVaultRename` or the periodic `updateTrackedFiles`, together with the
core update routine it invokes - identified by `id`, with its atomic steps
(the reads/writes between suspension points) listed in order.  The
`serialize` wrapper itself is the external `monkey-around` library, not
part of `src/`; the model follows the spec's §4.5/§5 contract. -/
structure Invocation where
  id : Nat
  steps : List Nat
deriving DecidableEq, Repr

/-- Modelled from the spec: the serializer's state - the FIFO queue of
pending invocations, the at-most-one running invocation (with its
remaining steps), the log of executed steps, and the ids in arrival
order. -/
structure SerState where
  queue : List Invocation
  running : Option Invocation
  execLog : List (Nat × Nat)
  arrivals : List Nat
deriving DecidableEq, Repr

/-- Modelled from the spec: the serializer's transitions.  A new event's
invocation is appended to the queue; an invocation starts only when
nothing is running and it is at the head of the queue; only the running
invocation executes steps; it leaves the running slot when it has fully
completed. -/
inductive SerStep : SerState → SerState → Prop
  | arrive (σ : SerState) (inv : Invocation) :
      SerStep σ { σ with queue := σ.queue ++ [inv], arrivals := σ.arrivals ++ [inv.id] }
  | start (σ : SerState) (inv : Invocation) (rest : List Invocation) :
      σ.running = none → σ.queue = inv :: rest →
      SerStep σ { σ with queue := rest, running := some inv }
  | exec (σ : SerState) (i s : Nat) (ss : List Nat) :
      σ.running = some ⟨i, s :: ss⟩ →
      SerStep σ { σ with execLog := σ.execLog ++ [(i, s)], running := some ⟨i, ss⟩ }
  | finish (σ : SerState) (i : Nat) :
      σ.running = some ⟨i, []⟩ →
      SerStep σ { σ with running := none }

/-- The serializer's initial state. -/
def initSer : SerState := ⟨[], none, [], []⟩

/-- States the serializer can reach from its initial state. -/
inductive SerReach : SerState → Prop
  | init : SerReach initSer
  | step {σ σ' : SerState} : SerReach σ → SerStep σ σ' → SerReach σ'

/-- Flatten a list of `(id, count)` blocks into the id sequence
`id₁ … id₁ id₂ … id₂ …`. -/
def blocksFlat : List (Nat × Nat) → List Nat
  | [] => []
  | b :: bs => List.replicate b.2 b.1 ++ blocksFlat bs

/-- The inductive invariant of the serializer: the executed log is a
concatenation of whole per-invocation blocks (`done`), possibly followed
by the partial block of the invocation currently running, and those block
ids followed by the queued ids reconstruct the arrival order. -/
def SerInv (σ : SerState) : Prop :=
  ∃ (done runBlock : List (Nat × Nat)),
    (match σ.running with
     | none => runBlock = []
     | some r => ∃ k, runBlock = [(r.id, k)]) ∧
    σ.execLog.map Prod.fst = blocksFlat (done ++ runBlock) ∧
    σ.arrivals = (done ++ runBlock).map Prod.fst ++ σ.queue.map Invocation.id

/-! ## Occurrence predicates for first-occurrence replacement -/

/-- Does line `l` parse as a heading whose text is `t`? -/
def lineMatches (t l : String) : Bool :=
  match isHeadingLine? l with
  | some (_, tx) => tx == t
  | none => false

/-- `p` does not occur in `s` at any position strictly before `n`. -/
def noOccurBefore (p s : List Char) (n : Nat) : Prop :=
  ∀ i, i < n → p.isPrefixOf (s.drop i) = false

/-- `p` (nonempty) does not occur in `s` at all. -/
def noOccur (p s : List Char) : Prop :=
  p ≠ [] ∧ noOccurBefore p s s.length

instance (p s : List Char) (n : Nat) : Decidable (noOccurBefore p s n) := by
  unfold noOccurBefore; infer_instance

instance (p s : List Char) : Decidable (noOccur p s) := by
  unfold noOccur; infer_instance

/-- The shape of the note after a matched heading's region, as used by the
single-match replacement lemmas: `R` either is empty (no heading follows
the matched one) or starts with a non-matching heading line that follows a
nonempty region `M`, and continues with lines in which no heading matches
`t`. -/
def NextPart (t : String) (M R : List String) : Prop :=
  R = [] ∨
    (M ≠ [] ∧ ∃ nl B nlv nt, R = nl :: B ∧
      isHeadingLine? nl = some (nlv, nt) ∧ nt ≠ t ∧
      (∀ l ∈ B, lineMatches t l = false))

/-! ## Lemmas: the heading cache -/

theorem parseHeadingsFrom_append (A : List String) :
    ∀ (k : Nat) (B : List String),
      parseHeadingsFrom k (A ++ B) =
        parseHeadingsFrom k A ++ parseHeadingsFrom (k + A.length) B := by
  induction A with
  | nil => intro k B; simp [parseHeadingsFrom]
  | cons l ls ih =>
    intro k B
    have h2 : k + 1 + ls.length = k + (l :: ls).length := by
      simp only [List.length_cons]; omega
    simp only [List.cons_append, parseHeadingsFrom]
    cases h : isHeadingLine? l with
    | none =>
      simp only [h, List.append_eq]
      rw [ih (k + 1) B, h2]
    | some p =>
      obtain ⟨lv, t⟩ := p
      simp only [h, List.append_eq, List.cons_append]
      rw [ih (k + 1) B, h2]

theorem parseHeadingsFrom_eq_nil {ls : List String}
    (h : ∀ l ∈ ls, isHeadingLine? l = none) :
    ∀ k, parseHeadingsFrom k ls = [] := by
  induction ls with
  | nil => intro k; rfl
  | cons l ls ih =>
    intro k
    have hl := h l (List.mem_cons_self l ls)
    simp only [parseHeadingsFrom, hl]
    exact ih (fun x hx => h x (List.mem_cons_of_mem l hx)) (k + 1)

theorem parseHeadingsFrom_no_match {t : String} {ls : List String}
    (h : ∀ l ∈ ls, lineMatches t l = false) :
    ∀ k, ∀ hd ∈ parseHeadingsFrom k ls, hd.heading ≠ t := by
  induction ls with
  | nil => intro k hd hhd; simp [parseHeadingsFrom] at hhd
  | cons l ls ih =>
    intro k hd hhd
    have hl := h l (List.mem_cons_self l ls)
    have htail := ih (fun x hx => h x (List.mem_cons_of_mem l hx)) (k + 1)
    simp only [parseHeadingsFrom] at hhd
    cases hli : isHeadingLine? l with
    | none =>
      rw [hli] at hhd
      exact htail hd hhd
    | some p =>
      obtain ⟨lv, tx⟩ := p
      rw [hli] at hhd
      rcases List.mem_cons.mp hhd with heq | hmem
      · subst heq
        simp only [lineMatches, hli] at hl
        intro hcontra
        have htx : tx = t := hcontra
        rw [htx] at hl
        simp at hl
      · exact htail hd hmem

theorem take_append_cons (A : List α) (x : α) (z : List α) :
    (A ++ x :: z).take (A.length + 1) = A ++ [x] := by
  induction A with
  | nil => rfl
  | cons a as ih =>
    simp only [List.cons_append, List.length_cons, List.take_succ_cons, ih]

theorem drop_length_add (A : List α) (z : List α) (n : Nat) :
    (A ++ z).drop (A.length + n) = z.drop n := by
  induction A with
  | nil => simp
  | cons a as ih =>
    simp only [List.cons_append, List.length_cons, Nat.add_right_comm,
      List.drop_succ_cons, ih]

/-- The heading cache of a decomposed note: lines `A`, then a heading line
`hl`, then heading-free lines `M`, then `R`. -/
theorem parseHeadings_decomp {A M R : List String} {hl : String} {lv : Nat} {t : String}
    (hhl : isHeadingLine? hl = some (lv, t))
    (hM : ∀ l ∈ M, isHeadingLine? l = none) :
    parseHeadings (A ++ hl :: (M ++ R)) =
      parseHeadingsFrom 0 A ++
        Heading.mk t lv A.length A.length ::
          parseHeadingsFrom (A.length + 1 + M.length) R := by
  unfold parseHeadings
  rw [parseHeadingsFrom_append A 0 (hl :: (M ++ R))]
  have hcons : parseHeadingsFrom (0 + A.length) (hl :: (M ++ R)) =
      Heading.mk t lv A.length A.length ::
        parseHeadingsFrom (A.length + 1 + M.length) R := by
    simp only [Nat.zero_add, parseHeadingsFrom, hhl]
    rw [parseHeadingsFrom_append M (A.length + 1) R,
      parseHeadingsFrom_eq_nil hM (A.length + 1)]
    simp [Nat.add_assoc]
  rw [hcons]

theorem isEmpty_append_cons (X : List α) (y : α) (Z : List α) :
    (X ++ y :: Z).isEmpty = false := by
  cases X <;> rfl

/-! ## Lemmas: splices of a decomposed note -/

theorem splice_to_end (A M : List String) (hl : String) (rs : List String) :
    spliceList (A ++ hl :: M) (A.length + 1)
        ((A ++ hl :: M).length - (A.length + 1)) rs = A ++ hl :: rs := by
  unfold spliceList
  have hlen : (A ++ hl :: M).length = A.length + 1 + M.length := by
    simp [List.length_append, List.length_cons]; omega
  have h2 : A.length + 1 + ((A ++ hl :: M).length - (A.length + 1)) =
      (A ++ hl :: M).length := by rw [hlen]; omega
  rw [take_append_cons, h2, List.drop_length]
  simp

theorem splice_mid (A M R : List String) (hl : String) (rs : List String)
    (hMne : M ≠ []) :
    spliceList (A ++ hl :: (M ++ R)) (A.length + 1) (M.length - 1) rs =
      A ++ hl :: (rs ++ (M.drop (M.length - 1) ++ R)) := by
  unfold spliceList
  have hM1 : 1 ≤ M.length := by
    cases M with
    | nil => exact absurd rfl hMne
    | cons a as => simp
  have h2 : A.length + 1 + (M.length - 1) = A.length + M.length := by omega
  have h3 : M.length = (M.length - 1) + 1 := by omega
  have h4 : (hl :: (M ++ R)).drop M.length = (M ++ R).drop (M.length - 1) := by
    conv_lhs => rw [h3]
    exact List.drop_succ_cons
  have h5 : M.length - 1 - M.length = 0 := by omega
  rw [take_append_cons, h2, drop_length_add A (hl :: (M ++ R)) M.length, h4,
    List.drop_append_eq_append_drop, h5]
  simp

/-! ## Lemmas: the heading loop -/

theorem writeLoop_skip {t : String} {r : Except String (List String)}
    {pre : List Heading} (h : ∀ x ∈ pre, x.heading ≠ t) :
    ∀ (hs : List Heading) (c : List String),
      writeLoop t r (pre ++ hs) c = writeLoop t r hs c := by
  induction pre with
  | nil => intro hs c; rfl
  | cons x xs ih =>
    intro hs c
    have hx := h x (List.mem_cons_self x xs)
    simp only [List.cons_append, writeLoop, if_neg hx]
    exact ih (fun y hy => h y (List.mem_cons_of_mem x hy)) hs c

theorem writeLoop_none {t : String} {r : Except String (List String)}
    {hs : List Heading} (h : ∀ x ∈ hs, x.heading ≠ t) :
    ∀ c, writeLoop t r hs c = Except.ok (c, false) := by
  induction hs with
  | nil => intro c; rfl
  | cons x xs ih =>
    intro c
    have hx := h x (List.mem_cons_self x xs)
    simp only [writeLoop, if_neg hx]
    exact ih (fun y hy => h y (List.mem_cons_of_mem x hy)) c

theorem writeLoop_any (t : String) (rs : List String) :
    ∀ (hs : List Heading) (c : List String),
      ∃ c', writeLoop t (Except.ok rs) hs c =
        Except.ok (c', hs.any (fun h => h.heading == t)) := by
  intro hs
  induction hs with
  | nil => intro c; exact ⟨c, rfl⟩
  | cons x xs ih =>
    intro c
    by_cases hx : x.heading = t
    · cases hnxt : xs.head? with
      | some nxt =>
        rcases ih (spliceList c (x.endLine + 1)
            (nxt.startLine - 1 - (x.endLine + 1)) rs) with ⟨c', hc'⟩
        refine ⟨c', ?_⟩
        simp only [writeLoop, if_pos hx, hnxt, hc', List.any_cons, hx,
          beq_self_eq_true, Bool.true_or, if_true]
      | none =>
        rcases ih (spliceList c (x.endLine + 1)
            (c.length - (x.endLine + 1)) rs) with ⟨c', hc'⟩
        refine ⟨c', ?_⟩
        simp only [writeLoop, if_pos hx, hnxt, hc', List.any_cons, hx,
          beq_self_eq_true, Bool.true_or, if_true]
    · simp only [writeLoop, if_neg hx]
      rcases ih c with ⟨c', hc'⟩
      refine ⟨c', ?_⟩
      rw [hc']
      have hb : (x.heading == t) = false := beq_eq_false_iff_ne.mpr hx
      simp [List.any_cons, hb]

theorem writeLoop_match_next {t : String} {rs : List String} {h nxt : Heading}
    {rest : List Heading} {c : List String}
    (hh : h.heading = t) (hnxt : rest.head? = some nxt)
    (hrest : ∀ x ∈ rest, x.heading ≠ t) :
    writeLoop t (Except.ok rs) (h :: rest) c =
      Except.ok
        (spliceList c (h.endLine + 1) (nxt.startLine - 1 - (h.endLine + 1)) rs, true) := by
  simp only [writeLoop, hh, eq_self_iff_true, if_true, hnxt, writeLoop_none hrest]

theorem writeLoop_match_last {t : String} {rs : List String} {h : Heading}
    {rest : List Heading} {c : List String}
    (hh : h.heading = t) (hnone : rest.head? = none)
    (hrest : ∀ x ∈ rest, x.heading ≠ t) :
    writeLoop t (Except.ok rs) (h :: rest) c =
      Except.ok (spliceList c (h.endLine + 1) (c.length - (h.endLine + 1)) rs, true) := by
  simp only [writeLoop, hh, eq_self_iff_true, if_true, hnone, writeLoop_none hrest]

theorem writeLoop_error {t : String} {e : String} {hs : List Heading}
    (h : ∃ x ∈ hs, x.heading = t) :
    ∀ c, writeLoop t (Except.error e) hs c = Except.error e := by
  induction hs with
  | nil => rcases h with ⟨x, hx, _⟩; simp at hx
  | cons x xs ih =>
    intro c
    by_cases hx : x.heading = t
    · simp only [writeLoop, if_pos hx]
    · simp only [writeLoop, if_neg hx]
      rcases h with ⟨y, hy, hyt⟩
      rcases List.mem_cons.mp hy with heq | hmem
      · subst heq; exact absurd hyt hx
      · exact ih ⟨y, hmem, hyt⟩ c

end ListModified

namespace ListModified

/-- When the note has headings, the configured heading is nonempty and the
gate passes (zero interval or an interval tick), `updateTrackedFiles` runs
the heading loop. -/
theorem updateTrackedFiles_loop (s : Settings) (render1 : String → Except String String)
    (content : List String) (doWrite : Bool)
    (h1 : (parseHeadings content).isEmpty = false) (h2 : s.heading ≠ "")
    (h3 : s.writeInterval = 0 ∨ doWrite = true) :
    updateTrackedFiles s render1 content doWrite =
      match writeLoop s.heading (renderAll render1 s.trackedFiles)
          (parseHeadings content) content with
      | Except.error e => UpdateResult.crashed e
      | Except.ok (c, true) => UpdateResult.wrote c
      | Except.ok (_, false) => UpdateResult.noMatch := by
  have hcond : ¬((parseHeadings content).isEmpty = true ∨ s.heading = "") := by
    rintro (h | h)
    · rw [h1] at h; exact Bool.false_ne_true h
    · exact h2 h
  have hgate : ¬(s.writeInterval ≠ 0 ∧ doWrite = false) := by
    rcases h3 with h3 | h3
    · rintro ⟨hg, _⟩; exact hg h3
    · rintro ⟨_, hg⟩; rw [h3] at hg; exact Bool.noConfusion hg
  simp only [updateTrackedFiles, if_neg hcond, if_neg hgate]

/-- The core region computation: when the note decomposes as lines `A`, a
heading line `hl` matching the configured heading, a heading-free region
`M`, and a remainder `R` shaped as in `NextPart` (and no other heading in
the note matches), a write-enabled run replaces the region with the
rendered lines `rs`.  When a next heading exists, the deletion count
`endPos - startPos` falls one short of the region, so the region's last
line `M.drop (M.length - 1)` survives. -/
theorem updateTrackedFiles_single_match
    (s : Settings) (render1 : String → Except String String) (rs : List String)
    (A M R : List String) (hl : String) (lv : Nat)
    (hren : renderAll render1 s.trackedFiles = Except.ok rs)
    (hhl : isHeadingLine? hl = some (lv, s.heading))
    (hne : s.heading ≠ "")
    (hA : ∀ l ∈ A, lineMatches s.heading l = false)
    (hM : ∀ l ∈ M, isHeadingLine? l = none)
    (hR : NextPart s.heading M R) :
    updateTrackedFiles s render1 (A ++ hl :: (M ++ R)) true =
      UpdateResult.wrote (A ++ hl :: (rs ++
        (if R.isEmpty then [] else M.drop (M.length - 1) ++ R))) := by
  have hparse := parseHeadings_decomp (A := A) (M := M) (R := R) hhl hM
  have hpre := parseHeadingsFrom_no_match hA 0
  have h1 : (parseHeadings (A ++ hl :: (M ++ R))).isEmpty = false := by
    rw [hparse]; exact isEmpty_append_cons _ _ _
  rw [updateTrackedFiles_loop s render1 _ true h1 hne (Or.inr rfl), hren, hparse,
    writeLoop_skip hpre]
  rcases hR with hRnil | ⟨hMne, nl, B, nlv, nt, hReq, hnl, hnn, hB⟩
  · subst hRnil
    have hnil : parseHeadingsFrom (A.length + 1 + M.length) ([] : List String) = [] := rfl
    rw [hnil]
    have hrest : ∀ x ∈ ([] : List Heading), x.heading ≠ s.heading := by simp
    rw [writeLoop_match_last
      (show (Heading.mk s.heading lv A.length A.length).heading = s.heading from rfl)
      (show ([] : List Heading).head? = none from rfl) hrest]
    simp only [List.append_nil]
    rw [splice_to_end A M hl rs]
    simp
  · subst hReq
    have hrest1 : parseHeadingsFrom (A.length + 1 + M.length) (nl :: B) =
        Heading.mk nt nlv (A.length + 1 + M.length) (A.length + 1 + M.length) ::
          parseHeadingsFrom (A.length + 1 + M.length + 1) B := by
      simp only [parseHeadingsFrom, hnl]
    have hrest : ∀ x ∈ parseHeadingsFrom (A.length + 1 + M.length) (nl :: B),
        x.heading ≠ s.heading := by
      rw [hrest1]
      intro x hx
      rcases List.mem_cons.mp hx with heq | hmem
      · subst heq; exact hnn
      · exact parseHeadingsFrom_no_match hB (A.length + 1 + M.length + 1) x hmem
    have hhead : (parseHeadingsFrom (A.length + 1 + M.length) (nl :: B)).head? =
        some (Heading.mk nt nlv (A.length + 1 + M.length) (A.length + 1 + M.length)) := by
      rw [hrest1]; rfl
    rw [writeLoop_match_next
      (show (Heading.mk s.heading lv A.length A.length).heading = s.heading from rfl)
      hhead hrest]
    dsimp only
    have h1' : 1 ≤ M.length := by
      cases M with
      | nil => exact absurd rfl hMne
      | cons a as => simp
    have hcount : A.length + 1 + M.length - 1 - (A.length + 1) = M.length - 1 := by
      omega
    rw [hcount, splice_mid A M (nl :: B) hl rs hMne]
    simp

end ListModified

namespace ListModified

/-! ## Lemmas: first-occurrence replacement -/

theorem isPrefixOf_self_append (p b : List Char) : p.isPrefixOf (p ++ b) = true := by
  induction p with
  | nil => simp [List.isPrefixOf]
  | cons x xs ih => simp [List.isPrefixOf, ih]

/-- A replacement whose pattern first occurs right after the prefix `a`
rewrites exactly that occurrence and leaves the tail `b` as literal text. -/
theorem replaceFirstAux_at (p r : List Char) :
    ∀ (a b : List Char), noOccurBefore p (a ++ p ++ b) a.length →
      replaceFirstAux (a ++ p ++ b) p r = a ++ r ++ b := by
  intro a
  induction a with
  | nil =>
    intro b _
    cases p with
    | nil =>
      cases b with
      | nil => simp [replaceFirstAux]
      | cons y ys => simp [replaceFirstAux, List.isPrefixOf]
    | cons x xs =>
      simp only [List.nil_append, List.cons_append, replaceFirstAux, List.append_eq]
      have hpre : (x :: xs).isPrefixOf (x :: (xs ++ b)) = true := by
        have h1 := isPrefixOf_self_append (x :: xs) b
        rw [List.cons_append] at h1
        exact h1
      rw [if_pos hpre]
      have hdrop : (x :: (xs ++ b)).drop (x :: xs).length = b := by
        have h2 := List.drop_left (x :: xs) b
        rw [List.cons_append] at h2
        exact h2
      rw [hdrop]
  | cons c cs ih =>
    intro b h
    have h0 := h 0 (by simp)
    simp only [List.drop_zero, List.cons_append] at h0
    simp only [List.cons_append, replaceFirstAux, List.append_eq]
    rw [if_neg ?hneg]
    case hneg =>
      intro hcontra
      rw [h0] at hcontra
      exact Bool.noConfusion hcontra
    rw [ih b ?htail]
    case htail =>
      intro i hi
      have h3 := h (i + 1) (by simpa using Nat.succ_lt_succ hi)
      simpa using h3

/-- A replacement whose nonempty pattern does not occur leaves the string
unchanged. -/
theorem replaceFirstAux_id (p r : List Char) (hp : p ≠ []) :
    ∀ (s : List Char), noOccurBefore p s s.length → replaceFirstAux s p r = s := by
  intro s
  induction s with
  | nil => intro _; simp [replaceFirstAux, hp]
  | cons c cs ih =>
    intro h
    have h0 := h 0 (by simp)
    simp only [List.drop_zero] at h0
    simp only [replaceFirstAux]
    rw [if_neg ?hneg]
    case hneg =>
      intro hcontra
      rw [h0] at hcontra
      exact Bool.noConfusion hcontra
    rw [ih ?htail]
    case htail =>
      intro i hi
      have h3 := h (i + 1) (by simpa using Nat.succ_lt_succ hi)
      simpa using h3

/-! ## Lemmas: rendering errors -/

/-- A tracked path whose render throws makes the whole map throw. -/
theorem renderAll_error {render1 : String → Except String String}
    {ps : List String} (h : ∃ p ∈ ps, ∃ e, render1 p = Except.error e) :
    ∃ e, renderAll render1 ps = Except.error e := by
  induction ps with
  | nil => rcases h with ⟨p, hp, _⟩; simp at hp
  | cons q qs ih =>
    cases hq : render1 q with
    | error e => exact ⟨e, by simp [renderAll, hq]⟩
    | ok r =>
      rcases h with ⟨p, hp, e0, he0⟩
      rcases List.mem_cons.mp hp with heq | hmem
      · subst heq; rw [hq] at he0; exact Except.noConfusion he0
      · rcases ih ⟨p, hmem, e0, he0⟩ with ⟨e, he⟩
        exact ⟨e, by simp [renderAll, hq, he]⟩

end ListModified

namespace ListModified

/-! ## Lemmas: the serializer invariant -/

theorem blocksFlat_append (xs ys : List (Nat × Nat)) :
    blocksFlat (xs ++ ys) = blocksFlat xs ++ blocksFlat ys := by
  induction xs with
  | nil => rfl
  | cons b bs ih => simp [blocksFlat, ih]

theorem serInv_init : SerInv initSer :=
  ⟨[], [], rfl, rfl, rfl⟩

theorem serStep_inv {σ σ' : SerState} (hstep : SerStep σ σ') (hinv : SerInv σ) :
    SerInv σ' := by
  rcases hinv with ⟨done, runBlock, hrun, hlog, harr⟩
  cases hstep with
  | arrive inv =>
    exact ⟨done, runBlock, hrun, hlog, by simp [harr, List.map_append]⟩
  | start inv rest hnone hqueue =>
    have hrb : runBlock = [] := by rw [hnone] at hrun; exact hrun
    subst hrb
    refine ⟨done, [(inv.id, 0)], ⟨0, rfl⟩, ?_, ?_⟩
    · simp only [List.append_nil] at hlog
      simp [blocksFlat_append, blocksFlat, hlog]
    · simp only [List.append_nil] at harr
      simp [harr, hqueue]
  | exec i st ss hrun2 =>
    rw [hrun2] at hrun
    rcases hrun with ⟨k, hk⟩
    subst hk
    refine ⟨done, [(i, k + 1)], ⟨k + 1, rfl⟩, ?_, ?_⟩
    · simp only [blocksFlat_append, blocksFlat, List.append_nil] at hlog
      simp [List.map_append, hlog, blocksFlat_append, blocksFlat,
        List.replicate_succ']
    · simpa using harr
  | finish i hrun2 =>
    rw [hrun2] at hrun
    rcases hrun with ⟨k, hk⟩
    refine ⟨done ++ runBlock, [], rfl, ?_, ?_⟩
    · simpa using hlog
    · simpa using harr

theorem serReach_inv {σ : SerState} (h : SerReach σ) : SerInv σ := by
  induction h with
  | init => exact serInv_init
  | step _ hstep ih => exact serStep_inv hstep ih

/-! ## Lemmas: the tracked-set invariant -/

theorem removeAll_nodup {l : List String} (x : String) (h : l.Nodup) :
    (removeAll x l).Nodup :=
  List.Nodup.filter _ h

theorem removeAll_subset (x : String) (l : List String) : removeAll x l ⊆ l := by
  intro y hy; exact (List.mem_filter.mp hy).1

theorem mem_removeAll {x y : String} {l : List String} (h : y ∈ removeAll x l) :
    y ∈ l ∧ y ≠ x := by
  rcases List.mem_filter.mp h with ⟨h1, h2⟩
  exact ⟨h1, by simpa using h2⟩

theorem not_mem_of_contains_eq_false {l : List String} {a : String}
    (h : l.contains a = false) : a ∉ l := by
  intro hm
  have hc : l.contains a = true := by simpa using hm
  rw [h] at hc
  exact Bool.noConfusion hc

/-- Settings invariant preservation for the cache-change handler: whatever
branch runs (rollover, rollover-write crash, daily-note early return, or
the add/remove logic), the tracked list stays duplicate-free and inside
the vault. -/
theorem onCacheChange_inv {s : Settings} {v : List String}
    (render1 : String → Except String String) (note : List String)
    (d path : String) (b1 b2 b3 b4 : Bool)
    (hnd : s.trackedFiles.Nodup) (hsub : s.trackedFiles ⊆ v) (hpath : path ∈ v) :
    (onCacheChange s render1 note d path b1 b2 b3 b4).settings.trackedFiles.Nodup ∧
      (onCacheChange s render1 note d path b1 b2 b3 b4).settings.trackedFiles ⊆ v := by
  have hrem : ∀ (tf : List String), tf.Nodup → tf ⊆ v →
      (removeAll path tf).Nodup ∧ removeAll path tf ⊆ v := by
    intro tf h1 h2
    exact ⟨removeAll_nodup path h1, fun x hx => h2 (removeAll_subset path tf hx)⟩
  simp only [onCacheChange]
  by_cases hro : s.lastTrackedDate ≠ d
  · simp only [if_pos hro]
    cases hu : updateTrackedFiles s render1 note false with
    | crashed e => exact ⟨hnd, hsub⟩
    | appended c =>
      by_cases hd : b1 = true
      · simp only [hd]; exact ⟨List.nodup_nil, by simp⟩
      · simp only [if_neg hd, if_pos hro]
        exact ⟨List.nodup_nil, by simp⟩
    | gated =>
      by_cases hd : b1 = true
      · simp only [hd]; exact ⟨List.nodup_nil, by simp⟩
      · simp only [if_neg hd, if_pos hro]
        exact ⟨List.nodup_nil, by simp⟩
    | wrote c =>
      by_cases hd : b1 = true
      · simp only [hd]; exact ⟨List.nodup_nil, by simp⟩
      · simp only [if_neg hd, if_pos hro]
        exact ⟨List.nodup_nil, by simp⟩
    | noMatch =>
      by_cases hd : b1 = true
      · simp only [hd]; exact ⟨List.nodup_nil, by simp⟩
      · simp only [if_neg hd, if_pos hro]
        exact ⟨List.nodup_nil, by simp⟩
  · simp only [if_neg hro]
    by_cases hd : b1 = true
    · simp only [hd]; exact ⟨hnd, hsub⟩
    · simp only [if_neg hd, if_neg hro]
      by_cases hadd : s.trackedFiles.contains path = false ∧ b2 = false ∧ b3 = false ∧
          b4 = false
      · simp only [if_pos hadd]
        have hnotmem : path ∉ s.trackedFiles := not_mem_of_contains_eq_false hadd.1
        have happn : (s.trackedFiles ++ [path]).Nodup := by
          simp [List.nodup_append, hnd, hnotmem]
        have happs : (s.trackedFiles ++ [path]) ⊆ v := by
          intro x hx
          rcases List.mem_append.mp hx with hx | hx
          · exact hsub hx
          · rw [List.mem_singleton.mp hx]; exact hpath
        by_cases hdel : ((s.trackedFiles ++ [path]).contains path = true ∧ b2 = true) ∨
            b3 = true ∨ b4 = true
        · simp only [if_pos hdel]
          exact hrem _ happn happs
        · simp only [if_neg hdel]
          exact ⟨happn, happs⟩
      · simp only [if_neg hadd]
        by_cases hdel : (s.trackedFiles.contains path = true ∧ b2 = true) ∨
            b3 = true ∨ b4 = true
        · simp only [if_pos hdel]
          exact hrem _ hnd hsub
        · simp only [if_neg hdel]
          exact ⟨hnd, hsub⟩

end ListModified

namespace ListModified

/-- One valid event preserves the system invariant. -/
theorem stepSys_inv {σ : SysState} {e : VaultEvent}
    (hinv : SysInv σ) (hvalid : validEvent σ e = true) : SysInv (stepSys σ e) := by
  rcases hinv with ⟨hv, hnd, hsub⟩
  cases e with
  | cacheChange path d b1 b2 b3 b4 note render1 =>
    have hpath : path ∈ σ.vault := by
      simpa [validEvent, List.contains_iff_exists_mem_beq] using hvalid
    rcases onCacheChange_inv render1 note d path b1 b2 b3 b4 hnd hsub hpath with ⟨h1, h2⟩
    exact ⟨hv, h1, h2⟩
  | vaultDelete path isFolder =>
    cases isFolder with
    | true => exact ⟨hv, hnd, hsub⟩
    | false =>
      have hpath : path ∈ σ.vault := by
        simpa [validEvent, List.contains_iff_exists_mem_beq] using hvalid
      refine ⟨?_, ?_, ?_⟩
      · simpa [stepSys] using List.Nodup.erase path hv
      · simp only [stepSys, onVaultDelete]
        split
        · exact removeAll_nodup path hnd
        · exact hnd
      · simp only [stepSys, onVaultDelete]
        split
        case isTrue hc =>
          intro x hx
          rcases mem_removeAll hx with ⟨hx1, hx2⟩
          simp only [Bool.false_eq_true, if_false]
          exact (List.Nodup.mem_erase_iff hv).mpr ⟨hx2, hsub hx1⟩
        case isFalse hc =>
          intro x hx
          have hxp : x ≠ path := by
            intro hcontra
            subst hcontra
            have : σ.settings.trackedFiles.contains x = true := by simpa using hx
            rw [not_and] at hc
            exact (hc (by trivial)) this
          simp only [Bool.false_eq_true, if_false]
          exact (List.Nodup.mem_erase_iff hv).mpr ⟨hxp, hsub hx⟩
  | vaultRename newPath oldPath isFolder =>
    cases isFolder with
    | true => exact ⟨hv, hnd, hsub⟩
    | false =>
      have hvp : σ.vault.contains oldPath = true ∧ σ.vault.contains newPath = false := by
        simpa [validEvent] using hvalid
      have hold : oldPath ∈ σ.vault := by
        have := hvp.1; simpa [List.contains_iff_exists_mem_beq] using this
      have hnew : newPath ∉ σ.vault := not_mem_of_contains_eq_false hvp.2
      have hvault' : (σ.vault.erase oldPath ++ [newPath]).Nodup := by
        have h1 : (σ.vault.erase oldPath).Nodup := List.Nodup.erase oldPath hv
        have h2 : newPath ∉ σ.vault.erase oldPath := fun hc =>
          hnew (((List.Nodup.mem_erase_iff hv).mp hc).2)
        simp [List.nodup_append, h1, h2]
      refine ⟨by simpa [stepSys] using hvault', ?_, ?_⟩
      · simp only [stepSys, onVaultRename]
        split
        case isTrue hc =>
          have hnewtr : newPath ∉ removeAll oldPath σ.settings.trackedFiles := by
            intro hcontra
            exact hnew (hsub (mem_removeAll hcontra).1)
          simp [List.nodup_append, removeAll_nodup oldPath hnd, hnewtr]
        case isFalse hc => exact hnd
      · simp only [stepSys, onVaultRename]
        split
        case isTrue hc =>
          intro x hx
          simp only [Bool.false_eq_true, if_false]
          rcases List.mem_append.mp hx with hx | hx
          · rcases mem_removeAll hx with ⟨hx1, hx2⟩
            exact List.mem_append.mpr
              (Or.inl ((List.Nodup.mem_erase_iff hv).mpr ⟨hx2, hsub hx1⟩))
          · exact List.mem_append.mpr (Or.inr hx)
        case isFalse hc =>
          intro x hx
          have hxo : x ≠ oldPath := by
            intro hcontra
            subst hcontra
            have : σ.settings.trackedFiles.contains x = true := by simpa using hx
            rw [not_and] at hc
            exact (hc (by trivial)) this
          simp only [Bool.false_eq_true, if_false]
          exact List.mem_append.mpr
            (Or.inl ((List.Nodup.mem_erase_iff hv).mpr ⟨hxo, hsub hx⟩))

/-- A valid trace from an invariant-satisfying state keeps the invariant. -/
theorem runSys_inv {σ : SysState} {es : List VaultEvent}
    (hinv : SysInv σ) (hval : validTrace σ es) : SysInv (runSys σ es) := by
  induction es generalizing σ with
  | nil => exact hinv
  | cons e es ih =>
    rcases hval with ⟨h1, h2⟩
    exact ih (stepSys_inv hinv h1) h2

end ListModified

namespace ListModified

/-! ## Claim C1 -/

/-- C1, counterexample to the claim as stated: on the spec's own example -
note `["# Heading","old1","old2","# Next","x"]`, heading `"Heading"`,
tracked set `["c.md"]` rendering to `"- c"` - the write routine produces
`["# Heading","- c","old2","# Next","x"]`: the line `"old2"` immediately
before the next heading is *not* replaced, because the source deletes
`endPos - startPos` lines with `endPos = nextHeading.start - 1`, one short
of the claimed region.  The claimed result differs. -/
theorem c1_counterexample :
    updateTrackedFiles
        (Settings.mk 0 "Heading" "- [[name]]" "" "" "" false ["c.md"] "2024-01-01")
        (fun _ => Except.ok "- c") ["# Heading", "old1", "old2", "# Next", "x"] true =
      UpdateResult.wrote ["# Heading", "- c", "old2", "# Next", "x"] ∧
    UpdateResult.wrote ["# Heading", "- c", "old2", "# Next", "x"] ≠
      UpdateResult.wrote ["# Heading", "- c", "# Next", "x"] := by
  constructor
  · decide
  · decide

/-- C1 (amended): when a subsequent heading exists, the replaced region
runs from the line after the matched heading through the line *two* before
the next heading; the line immediately preceding the next heading (the
last line of the old region `M`) is preserved.  On the spec's example the
result is `["# Heading","- c","old2","# Next","x"]`. -/
theorem c1_region_replacement
    (s : Settings) (render1 : String → Except String String) (rs : List String)
    (A M B : List String) (hl nl : String) (lv nlv : Nat) (nt : String)
    (hren : renderAll render1 s.trackedFiles = Except.ok rs)
    (hhl : isHeadingLine? hl = some (lv, s.heading))
    (hne : s.heading ≠ "")
    (hA : ∀ l ∈ A, lineMatches s.heading l = false)
    (hM : ∀ l ∈ M, isHeadingLine? l = none)
    (hMne : M ≠ [])
    (hnl : isHeadingLine? nl = some (nlv, nt))
    (hnn : nt ≠ s.heading)
    (hB : ∀ l ∈ B, lineMatches s.heading l = false) :
    updateTrackedFiles s render1 (A ++ hl :: (M ++ nl :: B)) true =
      UpdateResult.wrote (A ++ hl :: (rs ++ (M.drop (M.length - 1) ++ nl :: B))) := by
  have h := updateTrackedFiles_single_match s render1 rs A M (nl :: B) hl lv hren hhl hne
    hA hM (Or.inr ⟨hMne, nl, B, nlv, nt, rfl, hnl, hnn, hB⟩)
  simpa using h

/-- C1 witness: the amended theorem evaluated on the spec's example. -/
theorem c1_witness :
    updateTrackedFiles
        (Settings.mk 0 "Heading" "- [[name]]" "" "" "" false ["c.md"] "2024-01-01")
        (fun _ => Except.ok "- c")
        ([] ++ "# Heading" :: (["old1", "old2"] ++ "# Next" :: ["x"])) true =
      UpdateResult.wrote
        ([] ++ "# Heading" :: (["- c"] ++
          (["old1", "old2"].drop (["old1", "old2"].length - 1) ++ "# Next" :: ["x"]))) :=
  c1_region_replacement
    (Settings.mk 0 "Heading" "- [[name]]" "" "" "" false ["c.md"] "2024-01-01")
    (fun _ => Except.ok "- c") ["- c"] [] ["old1", "old2"] ["x"] "# Heading" "# Next"
    1 1 "Next" rfl (by decide) (by decide) (by decide) (by decide)
    (by decide) (by decide) (by decide) (by decide)

end ListModified

namespace ListModified

/-! ## Claim C9 -/

/-- C9, counterexample to the claim as stated: with two headings named
`"H"`, the loop at lines 212-237 does *not* stop at the first match - it
splices at every matching heading, using the second match's stale
positions against the already-modified content.  Line `"b"`, which lies in
the later same-text heading's region (strictly outside the first heading's
region), is destroyed. -/
theorem c9_counterexample :
    updateTrackedFiles (Settings.mk 0 "H" "r" "" "" "" false ["a.md"] "d")
        (fun _ => Except.ok "r") ["# H", "a", "# H", "b"] true =
      UpdateResult.wrote ["# H", "r", "a", "r"] ∧
    "b" ∈ (["# H", "a", "# H", "b"] : List String) ∧
    "b" ∉ (["# H", "r", "a", "r"] : List String) := by
  refine ⟨by decide, by decide, by decide⟩

/-- C9 (amended): when *exactly one* heading of the note matches the
configured heading, replacement is applied to that heading's region only:
the result keeps every line up to and including the matched heading line
(`A ++ [hl]`) and every line from the next heading on (`R`) unchanged,
with only a middle segment replaced. -/
theorem c9_frame
    (s : Settings) (render1 : String → Except String String) (rs : List String)
    (A M R : List String) (hl : String) (lv : Nat)
    (hren : renderAll render1 s.trackedFiles = Except.ok rs)
    (hhl : isHeadingLine? hl = some (lv, s.heading))
    (hne : s.heading ≠ "")
    (hA : ∀ l ∈ A, lineMatches s.heading l = false)
    (hM : ∀ l ∈ M, isHeadingLine? l = none)
    (hR : NextPart s.heading M R) :
    ∃ mid, updateTrackedFiles s render1 (A ++ hl :: (M ++ R)) true =
      UpdateResult.wrote (A ++ hl :: (mid ++ R)) := by
  have h := updateTrackedFiles_single_match s render1 rs A M R hl lv hren hhl hne hA hM hR
  by_cases hre : R = []
  · subst hre
    exact ⟨rs, by simpa using h⟩
  · refine ⟨rs ++ M.drop (M.length - 1), ?_⟩
    have hie : R.isEmpty = false := by
      cases R with
      | nil => exact absurd rfl hre
      | cons x xs => rfl
    rw [h, hie]
    simp [List.append_assoc]

/-- C9 witness: the frame theorem on a concrete note with a next heading
and trailing content. -/
theorem c9_witness :
    ∃ mid, updateTrackedFiles
        (Settings.mk 0 "Heading" "t" "" "" "" false ["c.md"] "d")
        (fun _ => Except.ok "- c")
        ([] ++ "# Heading" :: (["old1", "old2"] ++ "# Next" :: ["x"])) true =
      UpdateResult.wrote ([] ++ "# Heading" :: (mid ++ "# Next" :: ["x"])) :=
  c9_frame (Settings.mk 0 "Heading" "t" "" "" "" false ["c.md"] "d")
    (fun _ => Except.ok "- c") ["- c"] [] ["old1", "old2"] ("# Next" :: ["x"])
    "# Heading" 1 rfl (by decide) (by decide) (by decide) (by decide)
    (Or.inr ⟨by decide, "# Next", ["x"], 1, "Next", rfl, by decide, by decide, by decide⟩)

/-! ## Claim C6 -/

/-- C6, counterexample to the claim as stated: with two headings named
`"H"`, running the write routine twice (write enabled, no intervening
change) is not idempotent - the first run garbles the note using the
second match's stale position, and the second run then collapses it
further. -/
theorem c6_counterexample :
    updateTrackedFiles (Settings.mk 0 "H" "x" "" "" "" false ["a.md"] "d")
        (fun _ => Except.ok "r") ["# H", "a", "# H", "b"] true =
      UpdateResult.wrote ["# H", "r", "a", "r"] ∧
    updateTrackedFiles (Settings.mk 0 "H" "x" "" "" "" false ["a.md"] "d")
        (fun _ => Except.ok "r") ["# H", "r", "a", "r"] true =
      UpdateResult.wrote ["# H", "r"] ∧
    (["# H", "r", "a", "r"] : List String) ≠ ["# H", "r"] := by
  refine ⟨by decide, by decide, by decide⟩

/-- C6 (amended): the write routine is idempotent provided the configured
heading is nonempty, exactly one heading of the note matches it, the
rendered lines are not themselves heading lines, and the region between
the matched heading and the next heading is nonempty when a next heading
exists: the second run reproduces the first run's content byte for byte. -/
theorem c6_idempotent
    (s : Settings) (render1 : String → Except String String) (rs : List String)
    (A M R : List String) (hl : String) (lv : Nat)
    (hren : renderAll render1 s.trackedFiles = Except.ok rs)
    (hhl : isHeadingLine? hl = some (lv, s.heading))
    (hne : s.heading ≠ "")
    (hA : ∀ l ∈ A, lineMatches s.heading l = false)
    (hM : ∀ l ∈ M, isHeadingLine? l = none)
    (hrs : ∀ l ∈ rs, isHeadingLine? l = none)
    (hR : NextPart s.heading M R) :
    ∃ c1, updateTrackedFiles s render1 (A ++ hl :: (M ++ R)) true =
        UpdateResult.wrote c1 ∧
      updateTrackedFiles s render1 c1 true = UpdateResult.wrote c1 := by
  have h1 := updateTrackedFiles_single_match s render1 rs A M R hl lv hren hhl hne hA hM hR
  rcases hR with hRnil | ⟨hMne, nl, B, nlv, nt, hReq, hnl, hnn, hB⟩
  · subst hRnil
    refine ⟨A ++ hl :: rs, by simpa using h1, ?_⟩
    have h2 := updateTrackedFiles_single_match s render1 rs A rs [] hl lv hren hhl hne
      hA hrs (Or.inl rfl)
    simpa using h2
  · subst hReq
    have hM1 : 1 ≤ M.length := by
      cases M with
      | nil => exact absurd rfl hMne
      | cons a as => simp
    have hDlen : (M.drop (M.length - 1)).length = 1 := by
      rw [List.length_drop]; omega
    have hD : ∀ l ∈ M.drop (M.length - 1), isHeadingLine? l = none :=
      fun l hlmem => hM l (List.drop_subset _ _ hlmem)
    have hDne : M.drop (M.length - 1) ≠ [] := by
      intro hc; rw [hc] at hDlen; simp at hDlen
    refine ⟨A ++ hl :: ((rs ++ M.drop (M.length - 1)) ++ (nl :: B)), ?_, ?_⟩
    · simpa [List.append_assoc] using h1
    · have hM' : ∀ l ∈ rs ++ M.drop (M.length - 1), isHeadingLine? l = none := by
        intro l hlm
        rcases List.mem_append.mp hlm with h | h
        exacts [hrs l h, hD l h]
      have hMne' : rs ++ M.drop (M.length - 1) ≠ [] := by
        intro hc
        rcases List.append_eq_nil.mp hc with ⟨_, h2⟩
        exact hDne h2
      have h2 := updateTrackedFiles_single_match s render1 rs A
        (rs ++ M.drop (M.length - 1)) (nl :: B) hl lv hren hhl hne hA hM'
        (Or.inr ⟨hMne', nl, B, nlv, nt, rfl, hnl, hnn, hB⟩)
      have hlen2 : (rs ++ M.drop (M.length - 1)).length - 1 = rs.length + 0 := by
        simp [List.length_append, hDlen]
      have hdrop : (rs ++ M.drop (M.length - 1)).drop
          ((rs ++ M.drop (M.length - 1)).length - 1) = M.drop (M.length - 1) := by
        rw [hlen2, drop_length_add]
        simp
      rw [hdrop] at h2
      simpa [List.append_assoc] using h2

/-- C6 witness: idempotence on the spec's example note. -/
theorem c6_witness :
    ∃ c1, updateTrackedFiles
        (Settings.mk 0 "Heading" "u" "" "" "" false ["c.md"] "d")
        (fun _ => Except.ok "- c")
        ([] ++ "# Heading" :: (["old1", "old2"] ++ "# Next" :: ["x"])) true =
      UpdateResult.wrote c1 ∧
    updateTrackedFiles (Settings.mk 0 "Heading" "u" "" "" "" false ["c.md"] "d")
        (fun _ => Except.ok "- c") c1 true = UpdateResult.wrote c1 :=
  c6_idempotent (Settings.mk 0 "Heading" "u" "" "" "" false ["c.md"] "d")
    (fun _ => Except.ok "- c") ["- c"] [] ["old1", "old2"] ("# Next" :: ["x"])
    "# Heading" 1 rfl (by decide) (by decide) (by decide) (by decide) (by decide)
    (Or.inr ⟨by decide, "# Next", ["x"], 1, "Next", rfl, by decide, by decide, by decide⟩)

end ListModified

namespace ListModified

/-! ## Claim C5 -/

/-- C5, counterexample to the claim as stated: with a zero write interval,
an event that *does* change the tracked set (it adds `"a.md"`) performs no
write when the note has headings but none matching the configured heading -
the loop finds no match and never calls `vault.modify`, so "every
tracked-set-changing event triggers an immediate write" fails. -/
theorem c5_counterexample :
    (onCacheChange (Settings.mk 0 "Heading" "- [[name]]" "" "" "" false [] "2024-01-01")
        (fun p => Except.ok p) ["# Other", "x"] "2024-01-01" "a.md"
        false false false false).settings.trackedFiles = ["a.md"] ∧
    (onCacheChange (Settings.mk 0 "Heading" "- [[name]]" "" "" "" false [] "2024-01-01")
        (fun p => Except.ok p) ["# Other", "x"] "2024-01-01" "a.md"
        false false false false).finalWriteCall = some UpdateResult.noMatch ∧
    (onCacheChange (Settings.mk 0 "Heading" "- [[name]]" "" "" "" false [] "2024-01-01")
        (fun p => Except.ok p) ["# Other", "x"] "2024-01-01" "a.md"
        false false false false).note = ["# Other", "x"] ∧
    UpdateResult.noMatch.writesNote = false := by
  refine ⟨by decide, ?_, by decide, by decide⟩
  decide

/-- C5 (amended): with a nonzero interval, a note write happens only on an
interval tick (`doWrite`) or when the note has no headings at all (or the
heading setting is empty) - never on an ordinary per-event update of a
note that already has headings.  With a zero interval (and all tracked
paths rendering successfully), a call writes the note if and only if the
note has no headings, the heading setting is empty, or some heading of the
note matches the configured heading; if the note has headings but none
matches, no write happens. -/
theorem c5_write_gating :
    (∀ (s : Settings) (render1 : String → Except String String)
        (c : List String) (dw : Bool), s.writeInterval ≠ 0 →
        (updateTrackedFiles s render1 c dw).writesNote = true →
        dw = true ∨ parseHeadings c = [] ∨ s.heading = "") ∧
    (∀ (s : Settings) (render1 : String → Except String String)
        (c : List String) (dw : Bool) (rs : List String), s.writeInterval = 0 →
        renderAll render1 s.trackedFiles = Except.ok rs →
        ((updateTrackedFiles s render1 c dw).writesNote = true ↔
          (parseHeadings c = [] ∨ s.heading = "" ∨
            (parseHeadings c).any (fun h => h.heading == s.heading) = true))) := by
  constructor
  · intro s render1 c dw hint hw
    by_cases h1 : (parseHeadings c).isEmpty = true ∨ s.heading = ""
    · rcases h1 with h1 | h1
      · exact Or.inr (Or.inl (List.isEmpty_iff.mp h1))
      · exact Or.inr (Or.inr h1)
    · cases dw with
      | true => exact Or.inl rfl
      | false =>
        exfalso
        simp only [updateTrackedFiles, if_neg h1] at hw
        rw [if_pos ⟨hint, trivial⟩] at hw
        simp [UpdateResult.writesNote] at hw
  · intro s render1 c dw rs hint hren
    by_cases h1 : (parseHeadings c).isEmpty = true ∨ s.heading = ""
    · constructor
      · intro _
        rcases h1 with h1 | h1
        · exact Or.inl (List.isEmpty_iff.mp h1)
        · exact Or.inr (Or.inl h1)
      · intro _
        simp only [updateTrackedFiles, if_pos h1, hren]
        rfl
    · rw [not_or] at h1
      have h1a : (parseHeadings c).isEmpty = false := by
        cases hie : (parseHeadings c).isEmpty with
        | false => rfl
        | true => exact absurd hie h1.1
      have h1b : s.heading ≠ "" := h1.2
      rw [updateTrackedFiles_loop s render1 c dw h1a h1b (Or.inl hint), hren]
      rcases writeLoop_any s.heading rs (parseHeadings c) c with ⟨c', hc'⟩
      rw [hc']
      cases hany : (parseHeadings c).any (fun h => h.heading == s.heading) with
      | true =>
        constructor
        · intro _; exact Or.inr (Or.inr rfl)
        · intro _; rfl
      | false =>
        constructor
        · intro hcontra
          simp [UpdateResult.writesNote] at hcontra
        · rintro (hcontra | hcontra | hcontra)
          · rw [hcontra] at h1a; simp [parseHeadings, parseHeadingsFrom] at h1a
          · exact absurd hcontra h1b
          · exact Bool.noConfusion hcontra
  
/-- C5 witness: both parts at concrete inputs - a nonzero-interval call on
a headingless note (first-run append, allowed), and the zero-interval
write condition on a note with a matching heading. -/
theorem c5_witness :
    (true = true ∨
      parseHeadings ([] : List String) = [] ∨
      (Settings.mk 1 "H" "t" "" "" "" false [] "d").heading = "") ∧
    ((updateTrackedFiles (Settings.mk 0 "H" "t" "" "" "" false [] "d")
        (fun p => Except.ok p) ["# H", "x"] false).writesNote = true ↔
      (parseHeadings ["# H", "x"] = [] ∨
        (Settings.mk 0 "H" "t" "" "" "" false [] "d").heading = "" ∨
        (parseHeadings ["# H", "x"]).any
          (fun h => h.heading == (Settings.mk 0 "H" "t" "" "" "" false [] "d").heading) =
            true)) :=
  ⟨c5_write_gating.1 (Settings.mk 1 "H" "t" "" "" "" false [] "d")
      (fun p => Except.ok p) [] true (by decide) (by decide),
   c5_write_gating.2 (Settings.mk 0 "H" "t" "" "" "" false [] "d")
      (fun p => Except.ok p) ["# H", "x"] false [] rfl rfl⟩

end ListModified

namespace ListModified

/-! ## Claim C8 -/

/-- C8, counterexample to the claim as stated: with tracked paths
`["gone.md", "a.md"]` where `"gone.md"` no longer resolves, the formatter
does not skip the entry - the null dereference throws, the whole write
cycle aborts with the exception, and the remaining entry `"a.md"` is never
written. -/
theorem c8_counterexample :
    updateTrackedFiles (Settings.mk 0 "H" "[[name]]" "" "" "" false
        ["gone.md", "a.md"] "2024-01-01")
      (getFormattedOutput
        (fun p => if p = "a.md" then some (FileRec.mk "L" "a" [] "2024-01-01") else none)
        "[[name]]")
      ["# H", "x"] true = UpdateResult.crashed "gone.md" ∧
    (UpdateResult.crashed "gone.md").writesNote = false := by
  refine ⟨by decide, by decide⟩

/-- C8 (amended): a tracked path that no longer resolves to a file makes
`getFormattedOutput` throw while the rendered list is being built, so any
write attempt that reaches the heading loop (heading configured, note has
a matching heading, gate passed) aborts the whole cycle with the thrown
error - no entry is skipped and nothing is written. -/
theorem c8_missing_file_aborts
    (s : Settings) (vault : String → Option FileRec) (content : List String)
    (dw : Bool) (p : String)
    (hp : p ∈ s.trackedFiles) (hv : vault p = none)
    (hne : s.heading ≠ "") (hnonempty : (parseHeadings content).isEmpty = false)
    (hmatch : ∃ h ∈ parseHeadings content, h.heading = s.heading)
    (hgate : s.writeInterval = 0 ∨ dw = true) :
    ∃ e, updateTrackedFiles s (getFormattedOutput vault s.outputFormat) content dw =
      UpdateResult.crashed e := by
  have herr : ∃ e0, getFormattedOutput vault s.outputFormat p = Except.error e0 := by
    refine ⟨p, ?_⟩
    simp [getFormattedOutput, hv]
  rcases renderAll_error ⟨p, hp, herr⟩ with ⟨e, he⟩
  rw [updateTrackedFiles_loop s _ content dw hnonempty hne hgate, he,
    writeLoop_error hmatch]
  exact ⟨e, rfl⟩

/-- C8 witness: the amended theorem at a concrete vault missing one
tracked path. -/
theorem c8_witness :
    ∃ e, updateTrackedFiles (Settings.mk 0 "H" "[[name]]" "" "" "" false
        ["gone.md", "a.md"] "2024-01-01")
      (getFormattedOutput
        (fun p => if p = "a.md" then some (FileRec.mk "L" "a" [] "2024-01-01") else none)
        (Settings.mk 0 "H" "[[name]]" "" "" "" false ["gone.md", "a.md"]
          "2024-01-01").outputFormat)
      ["# H", "x"] true = UpdateResult.crashed e :=
  c8_missing_file_aborts
    (Settings.mk 0 "H" "[[name]]" "" "" "" false ["gone.md", "a.md"] "2024-01-01")
    (fun p => if p = "a.md" then some (FileRec.mk "L" "a" [] "2024-01-01") else none)
    ["# H", "x"] true "gone.md" (by decide) (by decide) (by decide) (by decide)
    (by decide) (Or.inl rfl)

end ListModified

namespace ListModified

/-! ## Claim C10 -/

/-- C10: each placeholder is substituted by a single JavaScript
`String.replace`, which rewrites only the first occurrence; any later
occurrence of the same placeholder passes through as literal text.  One
conjunct per placeholder, in the source's substitution order
(`[[link]]`, `[[name]]`, `[[tags]]`, `[[ctime]]`): when the template
decomposes as `a ++ placeholder ++ b` with its first occurrence right
after `a`, and no other placeholder occurs in the relevant strings (so no
other substitution fires), the output is `a ++ value ++ b` - in
particular any further occurrence of the placeholder inside `b` is left
verbatim. -/
theorem c10_first_occurrence_only :
    (∀ (vault : String → Option FileRec) (path : String) (f : FileRec)
        (a b : List Char), vault path = some f →
        noOccurBefore ("[[link]]".data) (a ++ "[[link]]".data ++ b) a.length →
        noOccur ("[[name]]".data) (a ++ f.link.data ++ b) →
        noOccur ("[[tags]]".data) (a ++ f.link.data ++ b) →
        noOccur ("[[ctime]]".data) (a ++ f.link.data ++ b) →
        getFormattedOutput vault (String.mk (a ++ "[[link]]".data ++ b)) path =
          Except.ok (String.mk (a ++ f.link.data ++ b))) ∧
    (∀ (vault : String → Option FileRec) (path : String) (f : FileRec)
        (a b : List Char), vault path = some f →
        noOccur ("[[link]]".data) (a ++ "[[name]]".data ++ b) →
        noOccurBefore ("[[name]]".data) (a ++ "[[name]]".data ++ b) a.length →
        noOccur ("[[tags]]".data) (a ++ f.basename.data ++ b) →
        noOccur ("[[ctime]]".data) (a ++ f.basename.data ++ b) →
        getFormattedOutput vault (String.mk (a ++ "[[name]]".data ++ b)) path =
          Except.ok (String.mk (a ++ f.basename.data ++ b))) ∧
    (∀ (vault : String → Option FileRec) (path : String) (f : FileRec)
        (a b : List Char), vault path = some f →
        noOccur ("[[link]]".data) (a ++ "[[tags]]".data ++ b) →
        noOccur ("[[name]]".data) (a ++ "[[tags]]".data ++ b) →
        noOccurBefore ("[[tags]]".data) (a ++ "[[tags]]".data ++ b) a.length →
        noOccur ("[[ctime]]".data) (a ++ (renderTags f.tags).data ++ b) →
        getFormattedOutput vault (String.mk (a ++ "[[tags]]".data ++ b)) path =
          Except.ok (String.mk (a ++ (renderTags f.tags).data ++ b))) ∧
    (∀ (vault : String → Option FileRec) (path : String) (f : FileRec)
        (a b : List Char), vault path = some f →
        noOccur ("[[link]]".data) (a ++ "[[ctime]]".data ++ b) →
        noOccur ("[[name]]".data) (a ++ "[[ctime]]".data ++ b) →
        noOccur ("[[tags]]".data) (a ++ "[[ctime]]".data ++ b) →
        noOccurBefore ("[[ctime]]".data) (a ++ "[[ctime]]".data ++ b) a.length →
        getFormattedOutput vault (String.mk (a ++ "[[ctime]]".data ++ b)) path =
          Except.ok (String.mk (a ++ f.ctimeFormatted.data ++ b))) := by
  refine ⟨?_, ?_, ?_, ?_⟩
  · intro vault path f a b hv h1 h2 h3 h4
    simp only [getFormattedOutput, hv]
    have e1 : jsReplace (String.mk (a ++ "[[link]]".data ++ b)) "[[link]]" f.link =
        String.mk (a ++ f.link.data ++ b) := by
      unfold jsReplace
      exact congrArg String.mk (replaceFirstAux_at _ _ a b h1)
    have e2 : jsReplace (String.mk (a ++ f.link.data ++ b)) "[[name]]" f.basename =
        String.mk (a ++ f.link.data ++ b) := by
      unfold jsReplace
      exact congrArg String.mk (replaceFirstAux_id _ _ h2.1 _ h2.2)
    have e3 : jsReplace (String.mk (a ++ f.link.data ++ b)) "[[tags]]"
        (renderTags f.tags) = String.mk (a ++ f.link.data ++ b) := by
      unfold jsReplace
      exact congrArg String.mk (replaceFirstAux_id _ _ h3.1 _ h3.2)
    have e4 : jsReplace (String.mk (a ++ f.link.data ++ b)) "[[ctime]]"
        f.ctimeFormatted = String.mk (a ++ f.link.data ++ b) := by
      unfold jsReplace
      exact congrArg String.mk (replaceFirstAux_id _ _ h4.1 _ h4.2)
    rw [e1, e2, e3, e4]
  · intro vault path f a b hv h1 h2 h3 h4
    simp only [getFormattedOutput, hv]
    have e1 : jsReplace (String.mk (a ++ "[[name]]".data ++ b)) "[[link]]" f.link =
        String.mk (a ++ "[[name]]".data ++ b) := by
      unfold jsReplace
      exact congrArg String.mk (replaceFirstAux_id _ _ h1.1 _ h1.2)
    have e2 : jsReplace (String.mk (a ++ "[[name]]".data ++ b)) "[[name]]"
        f.basename = String.mk (a ++ f.basename.data ++ b) := by
      unfold jsReplace
      exact congrArg String.mk (replaceFirstAux_at _ _ a b h2)
    have e3 : jsReplace (String.mk (a ++ f.basename.data ++ b)) "[[tags]]"
        (renderTags f.tags) = String.mk (a ++ f.basename.data ++ b) := by
      unfold jsReplace
      exact congrArg String.mk (replaceFirstAux_id _ _ h3.1 _ h3.2)
    have e4 : jsReplace (String.mk (a ++ f.basename.data ++ b)) "[[ctime]]"
        f.ctimeFormatted = String.mk (a ++ f.basename.data ++ b) := by
      unfold jsReplace
      exact congrArg String.mk (replaceFirstAux_id _ _ h4.1 _ h4.2)
    rw [e1, e2, e3, e4]
  · intro vault path f a b hv h1 h2 h3 h4
    simp only [getFormattedOutput, hv]
    have e1 : jsReplace (String.mk (a ++ "[[tags]]".data ++ b)) "[[link]]" f.link =
        String.mk (a ++ "[[tags]]".data ++ b) := by
      unfold jsReplace
      exact congrArg String.mk (replaceFirstAux_id _ _ h1.1 _ h1.2)
    have e2 : jsReplace (String.mk (a ++ "[[tags]]".data ++ b)) "[[name]]"
        f.basename = String.mk (a ++ "[[tags]]".data ++ b) := by
      unfold jsReplace
      exact congrArg String.mk (replaceFirstAux_id _ _ h2.1 _ h2.2)
    have e3 : jsReplace (String.mk (a ++ "[[tags]]".data ++ b)) "[[tags]]"
        (renderTags f.tags) = String.mk (a ++ (renderTags f.tags).data ++ b) := by
      unfold jsReplace
      exact congrArg String.mk (replaceFirstAux_at _ _ a b h3)
    have e4 : jsReplace (String.mk (a ++ (renderTags f.tags).data ++ b)) "[[ctime]]"
        f.ctimeFormatted = String.mk (a ++ (renderTags f.tags).data ++ b) := by
      unfold jsReplace
      exact congrArg String.mk (replaceFirstAux_id _ _ h4.1 _ h4.2)
    rw [e1, e2, e3, e4]
  · intro vault path f a b hv h1 h2 h3 h4
    simp only [getFormattedOutput, hv]
    have e1 : jsReplace (String.mk (a ++ "[[ctime]]".data ++ b)) "[[link]]" f.link =
        String.mk (a ++ "[[ctime]]".data ++ b) := by
      unfold jsReplace
      exact congrArg String.mk (replaceFirstAux_id _ _ h1.1 _ h1.2)
    have e2 : jsReplace (String.mk (a ++ "[[ctime]]".data ++ b)) "[[name]]"
        f.basename = String.mk (a ++ "[[ctime]]".data ++ b) := by
      unfold jsReplace
      exact congrArg String.mk (replaceFirstAux_id _ _ h2.1 _ h2.2)
    have e3 : jsReplace (String.mk (a ++ "[[ctime]]".data ++ b)) "[[tags]]"
        (renderTags f.tags) = String.mk (a ++ "[[ctime]]".data ++ b) := by
      unfold jsReplace
      exact congrArg String.mk (replaceFirstAux_id _ _ h3.1 _ h3.2)
    have e4 : jsReplace (String.mk (a ++ "[[ctime]]".data ++ b)) "[[ctime]]"
        f.ctimeFormatted = String.mk (a ++ f.ctimeFormatted.data ++ b) := by
      unfold jsReplace
      exact congrArg String.mk (replaceFirstAux_at _ _ a b h4)
    rw [e1, e2, e3, e4]

/-- C10 witness: the template `"- [[ctime]] [[ctime]]"` renders to
`"- 2023-05-01 [[ctime]]"` - the second `[[ctime]]` stays literal. -/
theorem c10_witness :
    getFormattedOutput
        (fun p => if p = "n.md" then
          some (FileRec.mk "L" "Note" ["t"] "2023-05-01") else none)
        (String.mk ("- ".data ++ "[[ctime]]".data ++ " [[ctime]]".data)) "n.md" =
      Except.ok (String.mk ("- ".data ++ "2023-05-01".data ++ " [[ctime]]".data)) :=
  c10_first_occurrence_only.2.2.2
    (fun p => if p = "n.md" then some (FileRec.mk "L" "Note" ["t"] "2023-05-01") else none)
    "n.md" (FileRec.mk "L" "Note" ["t"] "2023-05-01") ("- ".data) (" [[ctime]]".data)
    (by decide) (by decide) (by decide) (by decide) (by decide)

end ListModified

namespace ListModified

/-! ## Claim C2 -/

/-- C2 (spec model): in every state the serializer can reach, the executed
steps form whole per-invocation blocks - an invocation's steps are never
interleaved with another's, each invocation runs to completion before the
next starts - and the block order is a prefix of the arrival order (FIFO);
the remaining arrivals are still waiting in the queue.  That at most one
invocation runs at a time is structural: the model's running slot holds at
most one invocation. -/
theorem c2_serialized_fifo (σ : SerState) (h : SerReach σ) :
    ∃ blocks : List (Nat × Nat),
      σ.execLog.map Prod.fst = blocksFlat blocks ∧
      ∃ waiting, σ.arrivals = blocks.map Prod.fst ++ waiting := by
  rcases serReach_inv h with ⟨done, runBlock, _, hlog, harr⟩
  exact ⟨done ++ runBlock, hlog, σ.queue.map Invocation.id, harr⟩

/-- C2 witness: a run with two arrivals (ids 1 and 2), each executed to
completion in arrival order. -/
theorem c2_witness :
    ∃ blocks : List (Nat × Nat),
      (SerState.mk [] none [(1, 7), (2, 9)] [1, 2]).execLog.map Prod.fst =
        blocksFlat blocks ∧
      ∃ waiting, (SerState.mk [] none [(1, 7), (2, 9)] [1, 2]).arrivals =
        blocks.map Prod.fst ++ waiting :=
  c2_serialized_fifo _
    (SerReach.step
      (SerReach.step
        (SerReach.step
          (SerReach.step
            (SerReach.step
              (SerReach.step
                (SerReach.step
                  (SerReach.step SerReach.init
                    (SerStep.arrive initSer (Invocation.mk 1 [7])))
                  (SerStep.arrive _ (Invocation.mk 2 [9])))
                (SerStep.start _ (Invocation.mk 1 [7]) [Invocation.mk 2 [9]] rfl rfl))
              (SerStep.exec _ 1 7 [] rfl))
            (SerStep.finish _ 1 rfl))
          (SerStep.start _ (Invocation.mk 2 [9]) [] rfl rfl))
        (SerStep.exec _ 2 9 [] rfl))
      (SerStep.finish _ 2 rfl))

/-! ## Claim C4 -/

/-- C4: starting from a state satisfying the system invariant (vault paths
unique, tracked list duplicate-free and inside the vault), any valid trace
of cache-change, delete and rename events - including date rollovers and
renames of tracked files - leaves the tracked list free of duplicate
paths. -/
theorem c4_no_duplicates (σ0 : SysState) (es : List VaultEvent)
    (h0 : SysInv σ0) (hv : validTrace σ0 es) :
    (runSys σ0 es).settings.trackedFiles.Nodup :=
  (runSys_inv h0 hv).2.1

/-- C4 witness: track `"a.md"`, then rename it to `"c.md"`; the final
tracked list `["c.md"]` has no duplicates. -/
theorem c4_witness :
    (runSys
      (SysState.mk (Settings.mk 0 "H" "t" "" "" "" false [] "2024-01-01")
        ["a.md", "b.md"])
      [VaultEvent.cacheChange "a.md" "2024-01-01" false false false false []
          (fun p => Except.ok p),
        VaultEvent.vaultRename "c.md" "a.md" false]).settings.trackedFiles.Nodup :=
  c4_no_duplicates
    (SysState.mk (Settings.mk 0 "H" "t" "" "" "" false [] "2024-01-01")
      ["a.md", "b.md"])
    [VaultEvent.cacheChange "a.md" "2024-01-01" false false false false []
        (fun p => Except.ok p),
      VaultEvent.vaultRename "c.md" "a.md" false]
    (by refine ⟨by decide, by decide, by decide⟩)
    (by refine ⟨by decide, by decide, trivial⟩)

/-! ## Claim C3 -/

/-- C3: the date-rollover "last effort" write does not happen when a
nonzero write interval is configured.  On a cache-change event with stored
date `"2024-01-01"`, current date `"2024-01-02"`, tracked set
`["a.md","b.md"]`, a note containing the configured heading, and a 60
second interval, the rollover's `updateTrackedFiles()` call (no `doWrite`
flag) hits the interval gate and returns without writing; the tracked set
is then cleared and the stored date updated, so the final day's list is
lost - contradicting the claim (and the source's own comment
"last effort to write to file"). -/
theorem c3_rollover_write_gated :
    (onCacheChange
        (Settings.mk 60 "H" "- [[name]]" "" "" "" false ["a.md", "b.md"] "2024-01-01")
        (fun p => Except.ok ("- " ++ p)) ["# H", "- old"] "2024-01-02" "c.md"
        false false false false).rolloverWriteCall = some UpdateResult.gated ∧
    UpdateResult.gated.writesNote = false ∧
    (onCacheChange
        (Settings.mk 60 "H" "- [[name]]" "" "" "" false ["a.md", "b.md"] "2024-01-01")
        (fun p => Except.ok ("- " ++ p)) ["# H", "- old"] "2024-01-02" "c.md"
        false false false false).settings.trackedFiles = [] ∧
    (onCacheChange
        (Settings.mk 60 "H" "- [[name]]" "" "" "" false ["a.md", "b.md"] "2024-01-01")
        (fun p => Except.ok ("- " ++ p)) ["# H", "- old"] "2024-01-02" "c.md"
        false false false false).settings.lastTrackedDate = "2024-01-02" ∧
    (onCacheChange
        (Settings.mk 60 "H" "- [[name]]" "" "" "" false ["a.md", "b.md"] "2024-01-01")
        (fun p => Except.ok ("- " ++ p)) ["# H", "- old"] "2024-01-02" "c.md"
        false false false false).note = ["# H", "- old"] := by
  refine ⟨by decide, by decide, by decide, by decide, by decide⟩

/-! ## Claim C7 -/

/-- C7: when the daily note cannot be resolved and auto-creation is
disabled, the routine does *not* abort the write cycle: no notice is shown
(the `catch` fires only when `getDailyNote` throws, not when it returns
`null`), the unconditional re-invocation at line 172 fires, and the body
falls through with an undefined note.  The chain of queued re-invocations
never terminates for any bound `n` when auto-create is off, while with
auto-create on it creates the note and the single retry then resolves
it. -/
theorem c7_no_abort_unbounded_reinvocation :
    (resolveDailyNote false none).reinvoked = true ∧
    (resolveDailyNote false none).continueWith = none ∧
    (resolveDailyNote false none).noticed = false ∧
    (∀ n, reinvokeChain n false none = false) ∧
    reinvokeChain 2 true none = true := by
  refine ⟨rfl, rfl, rfl, ?_, rfl⟩
  intro n
  induction n with
  | zero => rfl
  | succ n ih => simpa [reinvokeChain, resolveDailyNote] using ih

end ListModified
